import Mathlib

/-!
Verification of the order-preserving row encoding for UTF-8 strings, a shallow
embedding of crates/polars-row/src/variable/utf8.rs.

Strings are modelled as lists of byte values (natural numbers below 256); valid
UTF-8 never contains the bytes 0xFC..0xFF, which the module doc of the source
relies on. Byte arithmetic is modelled with explicit wrap-around modulo 256,
matching release-mode u8 arithmetic. Unchecked slice accesses and unchecked
unwraps are undefined behaviour in the source; the embedding returns none in
exactly those places.
-/

/-- Per-column sort options: the bitflags DESCENDING, NULLS_LAST, UNORDERED. -/
structure RowEncodingOptions where
  descending : Bool
  nulls_last : Bool
  unordered : Bool
  deriving DecidableEq

/-- Modelled from the spec: RowEncodingOptions.null_sentinel is defined in row.rs,
which is outside the excerpt. Per the spec, the null sentinel byte is 0xFF when
NULLS_LAST is set and 0x00 otherwise; it does not depend on DESCENDING. -/
def RowEncodingOptions.null_sentinel (o : RowEncodingOptions) : Nat :=
  if o.nulls_last then 0xFF else 0x00

/-- The terminator byte for the variable-length encoding: 0xFE when DESCENDING,
0x01 otherwise. The source inlines these two literals at each use site. -/
def terminator (o : RowEncodingOptions) : Nat :=
  if o.descending then 0xFE else 0x01

/-- Length oracle for one element: 1 byte for a null, len + 1 for a non-null
string of len bytes, independent of the options. -/
def len_from_item (a : Option Nat) (_opt : RowEncodingOptions) : Nat :=
  1 + a.getD 0

/-- Number of bytes one encoded value occupies, read back from the row bytes.
The source reads index 0 unchecked and unwraps the terminator search unchecked,
so an empty row or a non-null row without a terminator is undefined behaviour,
modelled as none. -/
def len_from_buffer (row : List Nat) (opt : RowEncodingOptions) : Option Nat :=
  match row with
  | [] => none
  | b :: _ =>
    if b = opt.null_sentinel then
      some 1
    else if opt.descending then
      (List.findIdx? (fun x => x = 0xFE) row).map (fun e => e + 1)
    else
      (List.findIdx? (fun x => x = 0x01) row).map (fun e => e + 1)

/-- The bytes encode_str writes for a single element: the null sentinel for a
null; otherwise each payload byte shifted by 2 and the terminator 0x01, all
XORed with 0xFF when DESCENDING (t in the source). Byte addition wraps mod 256. -/
def encode_str_item (opt_value : Option (List Nat)) (opt : RowEncodingOptions) : List Nat :=
  let t : Nat := if opt.descending then 0xFF else 0x00
  match opt_value with
  | none => [opt.null_sentinel]
  | some s => s.map (fun b => Nat.xor t ((b + 2) % 256)) ++ [Nat.xor t 0x01]

/-- The offsets view of the encode_str loop: the i-th offset is advanced by the
number of bytes written for the i-th input (1 for null, 1 + len otherwise).
The source zips offsets with the input, leaving surplus offsets untouched. -/
def encode_str (offsets : List Nat) (input : List (Option (List Nat)))
    (opt : RowEncodingOptions) : List Nat :=
  match offsets, input with
  | [], _ => []
  | o :: os, [] => o :: os
  | o :: os, v :: vs => (o + (encode_str_item v opt).length) :: encode_str os vs opt

/-- The scratch buffer of one decode iteration: the payload bytes before the
first terminator, mapped through the inverse transformation (wrapping v - 2 for
ascending, wrapping (NOT v) - 2 for descending). -/
def decode_str_scratch (row : List Nat) (opt : RowEncodingOptions) : List Nat :=
  if opt.descending then
    (row.takeWhile (fun b => decide (b ≠ 0xFE))).map (fun v => (Nat.xor v 0xFF + 254) % 256)
  else
    (row.takeWhile (fun b => decide (b ≠ 0x01))).map (fun v => (v + 254) % 256)

/-- One iteration of the decode loops: read the first byte unchecked; on the
null sentinel advance by 1 and yield none, otherwise collect the scratch
payload and advance past it and the terminator. Out-of-bounds accesses of the
source (empty row, or advancing past the end when no terminator exists) are
modelled as none. -/
def decode_str_step (row : List Nat) (opt : RowEncodingOptions) :
    Option (Option (List Nat) × List Nat) :=
  match row with
  | [] => none
  | b :: _ =>
    if b = opt.null_sentinel then
      some (none, row.drop 1)
    else
      let scratch := decode_str_scratch row opt
      if 1 + scratch.length ≤ row.length then
        some (some scratch, row.drop (1 + scratch.length))
      else
        none

/-- The first loop of decode_str: decode rows optimistically with no validity
bitmap, breaking on the first null row (which is advanced by 1 before the
break). Returns the decoded values and whether the break was taken. -/
def decode_str_loop1 (rows : List (List Nat)) (opt : RowEncodingOptions) :
    Option (List (List Nat) × Bool) :=
  match rows with
  | [] => some ([], false)
  | row :: rest =>
    match decode_str_step row opt with
    | none => none
    | some (none, _) => some ([], true)
    | some (some v, _) =>
      match decode_str_loop1 rest opt with
      | none => none
      | some (vs, sawNull) => some (v :: vs, sawNull)

/-- The second loop of decode_str: decode the remaining rows while maintaining
the validity bitmap, pushing an empty placeholder value for each null row. -/
def decode_str_loop2 (rows : List (List Nat)) (opt : RowEncodingOptions) :
    Option (List (List Nat) × List Bool) :=
  match rows with
  | [] => some ([], [])
  | row :: rest =>
    match decode_str_step row opt with
    | none => none
    | some (none, _) =>
      match decode_str_loop2 rest opt with
      | none => none
      | some (vs, bs) => some ([] :: vs, false :: bs)
    | some (some v, _) =>
      match decode_str_loop2 rest opt with
      | none => none
      | some (vs, bs) => some (v :: vs, true :: bs)

/-- decode_str: run the optimistic first loop; if it decoded every row, return
the values with no validity bitmap. Otherwise promote: a bitmap of true for
every emitted row and false for the null row, an empty placeholder value, and
the second loop for the rows after the first null. -/
def decode_str (rows : List (List Nat)) (opt : RowEncodingOptions) :
    Option (List (List Nat) × Option (List Bool)) :=
  match decode_str_loop1 rows opt with
  | none => none
  | some (vals, _) =>
    if vals.length = rows.length then
      some (vals, none)
    else
      match decode_str_loop2 (rows.drop (vals.length + 1)) opt with
      | none => none
      | some (vals2, validity2) =>
        some ((vals ++ [[]]) ++ vals2,
          some ((List.replicate vals.length true ++ [false]) ++ validity2))

/-- Result of decode_str_as_cat: a normal return, a panic carrying the
dictionary error that was unwrapped, or undefined behaviour. -/
inductive CatDecodeResult (α : Type) where
  | ok : α → CatDecodeResult α
  | panicked : Nat → CatDecodeResult α
  | ub : CatDecodeResult α
  deriving DecidableEq

/-- First loop of decode_str_as_cat: like decode_str_loop1, but each decoded
string is interned through insert_cat, whose Result the source unwraps, so a
dictionary error panics. insert_cat is Modelled from the spec:
CategoricalMapping lives outside the excerpt; the spec says insert may fail
with an error of the dictionary itself (here an error code). -/
def decode_str_as_cat_loop1 (rows : List (List Nat)) (opt : RowEncodingOptions)
    (insert_cat : List Nat → Except Nat Nat) : CatDecodeResult (List Nat × Bool) :=
  match rows with
  | [] => .ok ([], false)
  | row :: rest =>
    match decode_str_step row opt with
    | none => .ub
    | some (none, _) => .ok ([], true)
    | some (some s, _) =>
      match insert_cat s with
      | .error e => .panicked e
      | .ok c =>
        match decode_str_as_cat_loop1 rest opt insert_cat with
        | .ub => .ub
        | .panicked e => .panicked e
        | .ok (vs, sawNull) => .ok (c :: vs, sawNull)

/-- Second loop of decode_str_as_cat: maintains the validity bitmap and pushes
the zeroed code for null rows; non-null rows are interned with an unwrap. -/
def decode_str_as_cat_loop2 (rows : List (List Nat)) (opt : RowEncodingOptions)
    (insert_cat : List Nat → Except Nat Nat) : CatDecodeResult (List Nat × List Bool) :=
  match rows with
  | [] => .ok ([], [])
  | row :: rest =>
    match decode_str_step row opt with
    | none => .ub
    | some (none, _) =>
      match decode_str_as_cat_loop2 rest opt insert_cat with
      | .ub => .ub
      | .panicked e => .panicked e
      | .ok (vs, bs) => .ok (0 :: vs, false :: bs)
    | some (some s, _) =>
      match insert_cat s with
      | .error e => .panicked e
      | .ok c =>
        match decode_str_as_cat_loop2 rest opt insert_cat with
        | .ub => .ub
        | .panicked e => .panicked e
        | .ok (vs, bs) => .ok (c :: vs, true :: bs)

/-- decode_str_as_cat: same two-loop structure as decode_str, emitting category
codes instead of strings, with the zeroed code as the null placeholder. -/
def decode_str_as_cat (rows : List (List Nat)) (opt : RowEncodingOptions)
    (insert_cat : List Nat → Except Nat Nat) :
    CatDecodeResult (List Nat × Option (List Bool)) :=
  match decode_str_as_cat_loop1 rows opt insert_cat with
  | .ub => .ub
  | .panicked e => .panicked e
  | .ok (out, _) =>
    if out.length = rows.length then
      .ok (out, none)
    else
      match decode_str_as_cat_loop2 (rows.drop (out.length + 1)) opt insert_cat with
      | .ub => .ub
      | .panicked e => .panicked e
      | .ok (out2, validity2) =>
        .ok ((out ++ [0]) ++ out2,
          some ((List.replicate out.length true ++ [false]) ++ validity2))

/-- A row begins with the null sentinel. -/
def rowIsNull (row : List Nat) (opt : RowEncodingOptions) : Bool :=
  decide (row.head? = some opt.null_sentinel)

/-- A row slice begins with a well-formed encoding: it is non-empty and either
starts with the null sentinel or contains the terminator for the options. -/
def WFRow (row : List Nat) (opt : RowEncodingOptions) : Prop :=
  row ≠ [] ∧ (rowIsNull row opt = true ∨ terminator opt ∈ row)

/-- Read a decoded values list plus optional validity bitmap back as a list of
optional strings (null-equal semantics). -/
def decoded_to_list (vals : List (List Nat)) (validity : Option (List Bool)) :
    List (Option (List Nat)) :=
  match validity with
  | none => vals.map some
  | some bs => List.zipWith (fun v b => if b then some v else none) vals bs

/-- Lexicographic comparison of byte sequences: elementwise, a strict prefix
comparing less. -/
def lexCompare : List Nat → List Nat → Ordering
  | [], [] => .eq
  | [], _ :: _ => .lt
  | _ :: _, [] => .gt
  | x :: xs, y :: ys =>
    if x < y then .lt else if y < x then .gt else lexCompare xs ys

/-- The intended order on optional strings under the options: nulls first
unless NULLS_LAST, values by byte-lexicographic order, reversed per value when
DESCENDING. -/
def optionStrCompare (opt : RowEncodingOptions) (x y : Option (List Nat)) : Ordering :=
  match x, y with
  | none, none => .eq
  | none, some _ => if opt.nulls_last then .gt else .lt
  | some _, none => if opt.nulls_last then .lt else .gt
  | some a, some b =>
    if opt.descending then (lexCompare a b).swap else lexCompare a b

/-! ### Byte arithmetic helpers -/

set_option maxRecDepth 4000 in
theorem xor255_table : (List.range 256).all (fun x => Nat.xor 255 x == 255 - x) = true := by rfl

theorem xor255_left (x : Nat) (h : x < 256) : Nat.xor 255 x = 255 - x := by
  have h2 := List.all_eq_true.mp xor255_table x (List.mem_range.mpr h)
  simpa using h2

theorem xor255_right (x : Nat) (h : x < 256) : Nat.xor x 255 = 255 - x :=
  (Nat.xor_comm x 255).trans (xor255_left x h)

/-! ### Normal forms of the per-element encoding -/

theorem enc_some_asc (opt : RowEncodingOptions) (s : List Nat) (hd : opt.descending = false)
    (hb : ∀ b ∈ s, b ≤ 253) :
    encode_str_item (some s) opt = s.map (fun b => b + 2) ++ [1] := by
  simp only [encode_str_item, hd]
  refine congrArg₂ (· ++ ·) ?_ ?_
  · refine List.map_congr_left (fun b hbmem => ?_)
    have hble := hb b hbmem
    rw [Nat.mod_eq_of_lt (by omega : b + 2 < 256)]
    exact Nat.zero_xor (b + 2)
  · rfl

theorem enc_some_desc (opt : RowEncodingOptions) (s : List Nat) (hd : opt.descending = true)
    (hb : ∀ b ∈ s, b ≤ 253) :
    encode_str_item (some s) opt = s.map (fun b => 253 - b) ++ [254] := by
  simp only [encode_str_item, hd]
  refine congrArg₂ (· ++ ·) ?_ ?_
  · refine List.map_congr_left (fun b hbmem => ?_)
    have hble := hb b hbmem
    show Nat.xor 255 ((b + 2) % 256) = 253 - b
    rw [Nat.mod_eq_of_lt (by omega : b + 2 < 256), xor255_left (b + 2) (by omega)]
    omega
  · show [Nat.xor 255 1] = [254]
    rfl

/-! ### Generic facts about the decode step -/

theorem takeWhile_append_all {α : Type} (p : α → Bool) (l r : List α)
    (h : ∀ x ∈ l, p x = true) : (l ++ r).takeWhile p = l ++ r.takeWhile p := by
  induction l with
  | nil => rfl
  | cons a t ih =>
    have ha : p a = true := h a (List.mem_cons_self a t)
    have ht : ∀ x ∈ t, p x = true := fun x hx => h x (List.mem_cons_of_mem a hx)
    simp [List.takeWhile_cons, ha, ih ht]

theorem takeWhile_ne_length_lt (t : Nat) (l : List Nat) (h : t ∈ l) :
    (l.takeWhile (fun b => decide (b ≠ t))).length < l.length := by
  induction l with
  | nil => cases h
  | cons a rest ih =>
    by_cases ha : a = t
    · subst ha; simp [List.takeWhile_cons]
    · have hmem : t ∈ rest := by
        rcases List.mem_cons.mp h with h1 | h1
        · exact absurd h1.symm ha
        · exact h1
      simpa [List.takeWhile_cons, ha] using ih hmem

theorem decode_scratch_asc (opt : RowEncodingOptions) (hd : opt.descending = false)
    (row : List Nat) :
    decode_str_scratch row opt =
      (row.takeWhile (fun b => decide (b ≠ 0x01))).map (fun v => (v + 254) % 256) := by
  simp [decode_str_scratch, hd]

theorem decode_scratch_desc (opt : RowEncodingOptions) (hd : opt.descending = true)
    (row : List Nat) :
    decode_str_scratch row opt =
      (row.takeWhile (fun b => decide (b ≠ 0xFE))).map
        (fun v => (Nat.xor v 0xFF + 254) % 256) := by
  simp [decode_str_scratch, hd]

theorem scratch_length_lt (opt : RowEncodingOptions) (row : List Nat)
    (hterm : terminator opt ∈ row) :
    (decode_str_scratch row opt).length < row.length := by
  cases hd : opt.descending
  · rw [decode_scratch_asc opt hd, List.length_map]
    exact takeWhile_ne_length_lt 1 row (by simpa [terminator, hd] using hterm)
  · rw [decode_scratch_desc opt hd, List.length_map]
    exact takeWhile_ne_length_lt 0xFE row (by simpa [terminator, hd] using hterm)

theorem decode_step_null (opt : RowEncodingOptions) (row : List Nat)
    (hne : row ≠ []) (hnull : rowIsNull row opt = true) :
    decode_str_step row opt = some (none, row.drop 1) := by
  cases row with
  | nil => exact absurd rfl hne
  | cons b rest =>
    have hb : b = opt.null_sentinel := by simpa [rowIsNull] using hnull
    simp [decode_str_step, hb]

theorem decode_step_notnull (opt : RowEncodingOptions) (row : List Nat)
    (hne : row ≠ []) (hnn : rowIsNull row opt = false) (hterm : terminator opt ∈ row) :
    decode_str_step row opt =
      some (some (decode_str_scratch row opt),
        row.drop (1 + (decode_str_scratch row opt).length)) := by
  cases row with
  | nil => exact absurd rfl hne
  | cons b rest =>
    have hb : ¬ b = opt.null_sentinel := by simpa [rowIsNull] using hnn
    have hlt := scratch_length_lt opt (b :: rest) hterm
    simp only [decode_str_step, if_neg hb]
    rw [if_pos (by omega)]

/-! ### Decoding an encoded element -/

theorem hsent_cases (opt : RowEncodingOptions) :
    opt.null_sentinel = 0 ∨ opt.null_sentinel = 255 := by
  unfold RowEncodingOptions.null_sentinel
  cases opt.nulls_last <;> simp

theorem enc_some_head (opt : RowEncodingOptions) (s : List Nat)
    (hb : ∀ b ∈ s, b ≤ 251) :
    ∃ h t, encode_str_item (some s) opt = h :: t ∧ 1 ≤ h ∧ h ≤ 254 := by
  have hb253 : ∀ b ∈ s, b ≤ 253 := fun b hbm => Nat.le_trans (hb b hbm) (by omega)
  cases hd : opt.descending
  · rw [enc_some_asc opt s hd hb253]
    cases s with
    | nil => exact ⟨1, [], rfl, by omega, by omega⟩
    | cons a t2 =>
      have := hb a (List.mem_cons_self a t2)
      exact ⟨a + 2, _, rfl, by omega, by omega⟩
  · rw [enc_some_desc opt s hd hb253]
    cases s with
    | nil => exact ⟨254, [], rfl, by omega, by omega⟩
    | cons a t2 =>
      have := hb a (List.mem_cons_self a t2)
      exact ⟨253 - a, _, rfl, by omega, by omega⟩

theorem enc_some_ne_nil (opt : RowEncodingOptions) (s : List Nat)
    (hb : ∀ b ∈ s, b ≤ 251) : encode_str_item (some s) opt ≠ [] := by
  obtain ⟨h, t, heq, _, _⟩ := enc_some_head opt s hb
  rw [heq]
  exact List.cons_ne_nil h t

theorem enc_some_not_null (opt : RowEncodingOptions) (s : List Nat)
    (hb : ∀ b ∈ s, b ≤ 251) :
    rowIsNull (encode_str_item (some s) opt) opt = false := by
  obtain ⟨h, t, heq, h1, h2⟩ := enc_some_head opt s hb
  rw [heq]
  rcases hsent_cases opt with hs | hs <;> simp [rowIsNull, hs] <;> omega

theorem enc_some_term (opt : RowEncodingOptions) (s : List Nat)
    (hb253 : ∀ b ∈ s, b ≤ 253) :
    terminator opt ∈ encode_str_item (some s) opt := by
  cases hd : opt.descending
  · rw [enc_some_asc opt s hd hb253]; simp [terminator, hd]
  · rw [enc_some_desc opt s hd hb253]; simp [terminator, hd]

theorem enc_some_length (opt : RowEncodingOptions) (s : List Nat) :
    (encode_str_item (some s) opt).length = s.length + 1 := by
  simp [encode_str_item]

theorem scratch_enc_asc (opt : RowEncodingOptions) (hd : opt.descending = false)
    (s : List Nat) (hb : ∀ b ∈ s, b ≤ 251) :
    decode_str_scratch (s.map (fun b => b + 2) ++ [1]) opt = s := by
  have hall : ∀ x ∈ s.map (fun b => b + 2), (fun b => decide (b ≠ (1 : Nat))) x = true := by
    intro x hx
    obtain ⟨b, hbmem, rfl⟩ := List.mem_map.mp hx
    simp
  rw [decode_scratch_asc opt hd, takeWhile_append_all _ _ _ hall]
  have h1 : List.takeWhile (fun b => decide (b ≠ (1 : Nat))) [1] = [] := rfl
  rw [h1, List.append_nil, List.map_map]
  have hcong : ∀ b ∈ s, ((fun v => (v + 254) % 256) ∘ (fun b => b + 2)) b = b := by
    intro b hbmem
    have := hb b hbmem
    simp only [Function.comp]
    omega
  rw [List.map_congr_left hcong]; exact List.map_id s

theorem scratch_enc_desc (opt : RowEncodingOptions) (hd : opt.descending = true)
    (s : List Nat) (hb : ∀ b ∈ s, b ≤ 251) :
    decode_str_scratch (s.map (fun b => 253 - b) ++ [254]) opt = s := by
  have hall : ∀ x ∈ s.map (fun b => 253 - b),
      (fun b => decide (b ≠ (254 : Nat))) x = true := by
    intro x hx
    obtain ⟨b, hbmem, rfl⟩ := List.mem_map.mp hx
    have := hb b hbmem
    simp
    omega
  rw [decode_scratch_desc opt hd, takeWhile_append_all _ _ _ hall]
  have h1 : List.takeWhile (fun b => decide (b ≠ (254 : Nat))) [254] = [] := rfl
  rw [h1, List.append_nil, List.map_map]
  have hcong : ∀ b ∈ s,
      ((fun v => (Nat.xor v 0xFF + 254) % 256) ∘ (fun b => 253 - b)) b = b := by
    intro b hbmem
    have hble := hb b hbmem
    simp only [Function.comp]
    rw [xor255_right (253 - b) (by omega)]
    omega
  rw [List.map_congr_left hcong]; exact List.map_id s

theorem scratch_enc (opt : RowEncodingOptions) (s : List Nat)
    (hb : ∀ b ∈ s, b ≤ 251) :
    decode_str_scratch (encode_str_item (some s) opt) opt = s := by
  have hb253 : ∀ b ∈ s, b ≤ 253 := fun b hbm => Nat.le_trans (hb b hbm) (by omega)
  cases hd : opt.descending
  · rw [enc_some_asc opt s hd hb253]; exact scratch_enc_asc opt hd s hb
  · rw [enc_some_desc opt s hd hb253]; exact scratch_enc_desc opt hd s hb

theorem decode_step_enc_some (opt : RowEncodingOptions) (s : List Nat)
    (hb : ∀ b ∈ s, b ≤ 251) :
    decode_str_step (encode_str_item (some s) opt) opt = some (some s, []) := by
  have hb253 : ∀ b ∈ s, b ≤ 253 := fun b hbm => Nat.le_trans (hb b hbm) (by omega)
  rw [decode_step_notnull opt _ (enc_some_ne_nil opt s hb) (enc_some_not_null opt s hb)
    (enc_some_term opt s hb253), scratch_enc opt s hb]
  have hdrop : (encode_str_item (some s) opt).drop (1 + s.length) = [] := by
    apply List.drop_eq_nil_of_le
    rw [enc_some_length]
    omega
  rw [hdrop]

theorem decode_step_enc_none (opt : RowEncodingOptions) :
    decode_str_step (encode_str_item none opt) opt = some (none, []) := by
  simp [encode_str_item, decode_str_step]

/-! ### C3: length oracle exactness -/

theorem encode_str_item_length (opt : RowEncodingOptions) (v : Option (List Nat)) :
    (encode_str_item v opt).length = len_from_item (v.map List.length) opt := by
  cases v with
  | none => simp [encode_str_item, len_from_item]
  | some s => simp [encode_str_item, len_from_item]; omega

theorem encode_str_getD (offsets : List Nat) (input : List (Option (List Nat)))
    (opt : RowEncodingOptions) :
    ∀ i, i < offsets.length → i < input.length →
      (encode_str offsets input opt).getD i 0 =
        offsets.getD i 0 + (encode_str_item (input.getD i none) opt).length := by
  induction offsets generalizing input with
  | nil => intro i h1 _; simp at h1
  | cons o os ih =>
    intro i h1 h2
    cases input with
    | nil => simp at h2
    | cons v vs =>
      cases i with
      | zero => simp [encode_str]
      | succ j =>
        simp only [encode_str, List.getD_cons_succ]
        exact ih vs j (by simpa using h1) (by simpa using h2)

/-- C3: encode_str advances the i-th offset by exactly len_from_item of the
i-th input, which is 1 for a null and len + 1 for a non-null string. -/
theorem length_oracle_exact (offsets : List Nat) (input : List (Option (List Nat)))
    (opt : RowEncodingOptions) :
    (∀ v : Option (List Nat),
        (encode_str_item v opt).length = len_from_item (v.map List.length) opt) ∧
    (len_from_item none opt = 1 ∧ ∀ n, len_from_item (some n) opt = n + 1) ∧
    (∀ i, i < offsets.length → i < input.length →
        (encode_str offsets input opt).getD i 0 =
          offsets.getD i 0 + len_from_item ((input.getD i none).map List.length) opt) := by
  refine ⟨fun v => encode_str_item_length opt v,
    ⟨rfl, fun n => by simp [len_from_item]; omega⟩, ?_⟩
  intro i h1 h2
  rw [← encode_str_item_length opt (input.getD i none)]
  exact encode_str_getD offsets input opt i h1 h2

theorem length_oracle_exact_witness :
    (encode_str [0, 5] [some [0x61], none]
        (RowEncodingOptions.mk false false false)).getD 0 0 =
      [0, 5].getD 0 0 + len_from_item
        ((([some [0x61], none] : List (Option (List Nat))).getD 0 none).map List.length)
        (RowEncodingOptions.mk false false false) :=
  (length_oracle_exact [0, 5] [some [0x61], none]
    (RowEncodingOptions.mk false false false)).2.2 0 (by decide) (by decide)

/-! ### C4: wire format -/

/-- C4: under ascending order a non-null string is written as each byte plus 2
followed by the terminator 0x01; a null is the single sentinel byte; the empty
string encodes to 0x01 ascending and 0xFE descending, distinct from the null
encodings 0x00 and 0xFF; the string a encodes to 0x63 0x01 ascending. -/
theorem wire_format (opt : RowEncodingOptions) (s : List Nat) (hb : ∀ b ∈ s, b ≤ 253) :
    (opt.descending = false →
        encode_str_item (some s) opt = s.map (fun b => b + 2) ++ [0x01]) ∧
    encode_str_item none opt = [opt.null_sentinel] ∧
    (opt.descending = false → encode_str_item (some []) opt = [0x01]) ∧
    (opt.descending = true → encode_str_item (some []) opt = [0xFE]) ∧
    encode_str_item (some []) opt ≠ [0x00] ∧
    encode_str_item (some []) opt ≠ [0xFF] ∧
    (opt.null_sentinel = 0x00 ∨ opt.null_sentinel = 0xFF) ∧
    (opt.descending = false → encode_str_item (some [0x61]) opt = [0x63, 0x01]) := by
  refine ⟨fun hd => enc_some_asc opt s hd hb, rfl, ?_, ?_, ?_, ?_, hsent_cases opt, ?_⟩
  · intro hd; rw [enc_some_asc opt [] hd (by simp)]; rfl
  · intro hd; rw [enc_some_desc opt [] hd (by simp)]; rfl
  · cases hd : opt.descending
    · rw [enc_some_asc opt [] hd (by simp)]; decide
    · rw [enc_some_desc opt [] hd (by simp)]; decide
  · cases hd : opt.descending
    · rw [enc_some_asc opt [] hd (by simp)]; decide
    · rw [enc_some_desc opt [] hd (by simp)]; decide
  · intro hd
    rw [enc_some_asc opt [0x61] hd (by decide)]
    rfl

theorem wire_format_witness :
    encode_str_item (some [0x61]) (RowEncodingOptions.mk false false false) = [0x63, 0x01] :=
  (wire_format (RowEncodingOptions.mk false false false) [0x61]
    (by decide)).2.2.2.2.2.2.2 rfl

/-! ### C5: ascending/descending duality -/

/-- C5 counterexample: with NULLS_LAST clear, the DESCENDING encoding of a null
is the byte 0x00, not the other reserved sentinel 0xFF that the claim
predicts: the null sentinel does not depend on DESCENDING. -/
theorem duality_null_cex :
    encode_str_item none (RowEncodingOptions.mk true false false) = [0x00] ∧
    encode_str_item none (RowEncodingOptions.mk true false false) ≠ [0xFF] := by
  decide

/-- C5 (amended): for non-null values the DESCENDING encoding is the bitwise
NOT of the ascending encoding; for a null the encoding is unchanged by
DESCENDING, the sentinel depending only on NULLS_LAST. -/
theorem asc_desc_duality (nl uo : Bool) (x : Option (List Nat)) :
    (∀ s, x = some s →
        encode_str_item x (RowEncodingOptions.mk true nl uo) =
          (encode_str_item x (RowEncodingOptions.mk false nl uo)).map
            (fun b => Nat.xor b 0xFF)) ∧
    (x = none →
        encode_str_item x (RowEncodingOptions.mk true nl uo) =
          encode_str_item x (RowEncodingOptions.mk false nl uo)) := by
  constructor
  · rintro s rfl
    simp only [encode_str_item, List.map_append, List.map_map]
    refine congrArg₂ (· ++ ·) ?_ ?_
    · refine List.map_congr_left (fun b _ => ?_)
      show Nat.xor 255 ((b + 2) % 256) = Nat.xor (Nat.xor 0 ((b + 2) % 256)) 255
      have h0 : Nat.xor 0 ((b + 2) % 256) = (b + 2) % 256 := Nat.zero_xor _
      rw [h0]
      exact Nat.xor_comm 255 ((b + 2) % 256)
    · show [Nat.xor 255 1] = [Nat.xor (Nat.xor 0 1) 255]
      rfl
  · rintro rfl
    rfl

theorem asc_desc_duality_witness :
    encode_str_item (some [0x61]) (RowEncodingOptions.mk true false false) =
      (encode_str_item (some [0x61]) (RowEncodingOptions.mk false false false)).map
        (fun b => Nat.xor b 0xFF) :=
  (asc_desc_duality false false (some [0x61])).1 [0x61] rfl

/-! ### C6: no forbidden bytes in payload -/

/-- C6 counterexample: the byte bound 0xFD in the claim is too weak: the
one-byte string 0xFD satisfies it, yet its ascending encoding contains the
reserved sentinel byte 0xFF. -/
theorem forbidden_bytes_cex :
    (∀ b ∈ [(0xFD : Nat)], b ≤ 0xFD) ∧
    0xFF ∈ encode_str_item (some [0xFD]) (RowEncodingOptions.mk false false false) := by
  decide

/-- C6 (amended): for every non-null string with all bytes at most 0xFC, the
encoding contains the matching terminator only as its final byte and contains
neither reserved sentinel byte 0x00 nor 0xFF in any position. -/
theorem no_forbidden_bytes (opt : RowEncodingOptions) (s : List Nat)
    (hb : ∀ b ∈ s, b ≤ 0xFC) :
    (∀ b ∈ (encode_str_item (some s) opt).dropLast, b ≠ terminator opt) ∧
    (encode_str_item (some s) opt).getLast? = some (terminator opt) ∧
    0x00 ∉ encode_str_item (some s) opt ∧
    0xFF ∉ encode_str_item (some s) opt := by
  have hb253 : ∀ b ∈ s, b ≤ 253 := fun b hbm => Nat.le_trans (hb b hbm) (by omega)
  cases hd : opt.descending
  · rw [enc_some_asc opt s hd hb253]
    refine ⟨?_, ?_, ?_, ?_⟩
    · intro b hbmem
      simp only [List.dropLast_concat] at hbmem
      obtain ⟨a, _, rfl⟩ := List.mem_map.mp hbmem
      simp [terminator, hd]
    · simp [terminator, hd]
    · intro hmem
      rcases List.mem_append.mp hmem with hm | hm
      · obtain ⟨a, _, ha⟩ := List.mem_map.mp hm
        omega
      · simp at hm
    · intro hmem
      rcases List.mem_append.mp hmem with hm | hm
      · obtain ⟨a, hamem, ha⟩ := List.mem_map.mp hm
        have := hb a hamem
        omega
      · simp at hm
  · rw [enc_some_desc opt s hd hb253]
    refine ⟨?_, ?_, ?_, ?_⟩
    · intro b hbmem
      simp only [List.dropLast_concat] at hbmem
      obtain ⟨a, hamem, rfl⟩ := List.mem_map.mp hbmem
      have := hb253 a hamem
      simp [terminator, hd]
      omega
    · simp [terminator, hd]
    · intro hmem
      rcases List.mem_append.mp hmem with hm | hm
      · obtain ⟨a, hamem, ha⟩ := List.mem_map.mp hm
        have := hb a hamem
        omega
      · simp at hm
    · intro hmem
      rcases List.mem_append.mp hmem with hm | hm
      · obtain ⟨a, hamem, ha⟩ := List.mem_map.mp hm
        omega
      · simp at hm

theorem no_forbidden_bytes_witness :
    0x00 ∉ encode_str_item (some [0x61]) (RowEncodingOptions.mk false false false) :=
  (no_forbidden_bytes (RowEncodingOptions.mk false false false) [0x61] (by decide)).2.2.1

/-! ### C9: categorical insert failure -/

/-- C9 counterexample: decoding the well-formed encoding of the string a with
a dictionary whose insert fails with error 7 panics (the source unwraps the
Result); the error is not returned to the caller. -/
theorem cat_error_panics_cex :
    decode_str_as_cat [[0x63, 0x01]] (RowEncodingOptions.mk false false false)
        (fun _ => Except.error 7) = CatDecodeResult.panicked 7 := by
  rfl

/-- C9 (amended): when insert_cat fails on a decoded string,
decode_str_as_cat panics with the dictionary error (unwrap) instead of
returning it. -/
theorem cat_insert_panic (opt : RowEncodingOptions) (insert_cat : List Nat → Except Nat Nat)
    (e : Nat) (s : List Nat) (rest : List (List Nat)) (hb : ∀ b ∈ s, b ≤ 0xFB)
    (hfail : insert_cat s = Except.error e) :
    decode_str_as_cat (encode_str_item (some s) opt :: rest) opt insert_cat =
      CatDecodeResult.panicked e := by
  have h1 : decode_str_as_cat_loop1 (encode_str_item (some s) opt :: rest) opt insert_cat =
      CatDecodeResult.panicked e := by
    simp only [decode_str_as_cat_loop1, decode_step_enc_some opt s hb, hfail]
  simp only [decode_str_as_cat, h1]

theorem cat_insert_panic_witness :
    decode_str_as_cat
        [encode_str_item (some [0x61]) (RowEncodingOptions.mk false false false)]
        (RowEncodingOptions.mk false false false) (fun _ => Except.error 7) =
      CatDecodeResult.panicked 7 :=
  cat_insert_panic (RowEncodingOptions.mk false false false) (fun _ => Except.error 7) 7
    [0x61] [] (by decide) rfl

/-! ### C7: cursor advancement and len_from_buffer agreement -/

theorem findIdx_eq_takeWhile_len (t : Nat) (l : List Nat) (h : t ∈ l) :
    List.findIdx? (fun x => decide (x = t)) l =
      some ((l.takeWhile (fun b => decide (b ≠ t))).length) := by
  induction l with
  | nil => cases h
  | cons a rest ih =>
    by_cases ha : a = t
    · subst ha
      simp [List.findIdx?_cons, List.takeWhile_cons]
    · have hmem : t ∈ rest := by
        rcases List.mem_cons.mp h with h1 | h1
        · exact absurd h1.symm ha
        · exact h1
      simp [List.findIdx?_cons, List.takeWhile_cons, ha, ih hmem]

theorem len_from_buffer_null (opt : RowEncodingOptions) (row : List Nat)
    (hne : row ≠ []) (hnull : rowIsNull row opt = true) :
    len_from_buffer row opt = some 1 := by
  cases row with
  | nil => exact absurd rfl hne
  | cons b rest =>
    have hb : b = opt.null_sentinel := by simpa [rowIsNull] using hnull
    simp [len_from_buffer, hb]

theorem len_from_buffer_notnull (opt : RowEncodingOptions) (row : List Nat)
    (hne : row ≠ []) (hnn : rowIsNull row opt = false) (hterm : terminator opt ∈ row) :
    len_from_buffer row opt = some (1 + (decode_str_scratch row opt).length) := by
  cases row with
  | nil => exact absurd rfl hne
  | cons b rest =>
    have hb : ¬ b = opt.null_sentinel := by simpa [rowIsNull] using hnn
    cases hd : opt.descending
    · have ht : (1 : Nat) ∈ b :: rest := by simpa [terminator, hd] using hterm
      rw [decode_scratch_asc opt hd, List.length_map]
      simp only [len_from_buffer, if_neg hb, hd, Bool.false_eq_true, if_false,
        findIdx_eq_takeWhile_len 1 (b :: rest) ht]
      simp [Nat.add_comm]
    · have ht : (0xFE : Nat) ∈ b :: rest := by simpa [terminator, hd] using hterm
      rw [decode_scratch_desc opt hd, List.length_map]
      simp only [len_from_buffer, if_neg hb, hd, if_true,
        findIdx_eq_takeWhile_len 0xFE (b :: rest) ht]
      simp [Nat.add_comm]

/-- C7: on a well-formed row slice, decode_str advances the slice by exactly
1 byte when the first byte is the null sentinel and by exactly 1 plus the
payload length otherwise (past payload and terminator), and len_from_buffer
returns exactly the same count. -/
theorem cursor_advancement (opt : RowEncodingOptions) (row : List Nat)
    (hwf : WFRow row opt) :
    (rowIsNull row opt = true →
        decode_str_step row opt = some (none, row.drop 1) ∧
        len_from_buffer row opt = some 1) ∧
    (rowIsNull row opt = false →
        decode_str_step row opt =
          some (some (decode_str_scratch row opt),
            row.drop (1 + (decode_str_scratch row opt).length)) ∧
        len_from_buffer row opt = some (1 + (decode_str_scratch row opt).length)) := by
  obtain ⟨hne, hcase⟩ := hwf
  constructor
  · intro hnull
    exact ⟨decode_step_null opt row hne hnull, len_from_buffer_null opt row hne hnull⟩
  · intro hnn
    have hterm : terminator opt ∈ row := by
      rcases hcase with h | h
      · rw [hnn] at h; cases h
      · exact h
    exact ⟨decode_step_notnull opt row hne hnn hterm,
      len_from_buffer_notnull opt row hne hnn hterm⟩

theorem cursor_advancement_witness :
    decode_str_step [0x63, 0x01] (RowEncodingOptions.mk false false false) =
      some (some (decode_str_scratch [0x63, 0x01] (RowEncodingOptions.mk false false false)),
        [0x63, 0x01].drop (1 + (decode_str_scratch [0x63, 0x01]
          (RowEncodingOptions.mk false false false)).length)) ∧
    len_from_buffer [0x63, 0x01] (RowEncodingOptions.mk false false false) =
      some (1 + (decode_str_scratch [0x63, 0x01]
        (RowEncodingOptions.mk false false false)).length) :=
  (cursor_advancement (RowEncodingOptions.mk false false false) [0x63, 0x01]
    ⟨by decide, Or.inr (by decide)⟩).2 (by decide)

/-! ### Loop invariants of decode_str on well-formed rows -/

theorem wfrow_not_null_term (opt : RowEncodingOptions) (row : List Nat)
    (hwf : WFRow row opt) (hnn : rowIsNull row opt = false) : terminator opt ∈ row := by
  rcases hwf.2 with h | h
  · rw [hnn] at h; cases h
  · exact h

theorem loop2_wf (opt : RowEncodingOptions) :
    ∀ rows : List (List Nat), (∀ row ∈ rows, WFRow row opt) →
      ∃ vals bs, decode_str_loop2 rows opt = some (vals, bs) ∧
        bs = rows.map (fun r => !(rowIsNull r opt)) ∧
        vals.length = rows.length ∧
        (∀ p ∈ vals.zip bs, p.2 = false → p.1 = ([] : List Nat)) := by
  intro rows
  induction rows with
  | nil => intro _; exact ⟨[], [], rfl, rfl, rfl, by simp⟩
  | cons row rest ih =>
    intro hwf
    have hrow := hwf row (List.mem_cons_self row rest)
    have hrest := fun r hr => hwf r (List.mem_cons_of_mem row hr)
    obtain ⟨vals, bs, heq, hbs, hlen, hzip⟩ := ih hrest
    by_cases hnull : rowIsNull row opt = true
    · have hstep := decode_step_null opt row hrow.1 hnull
      refine ⟨[] :: vals, false :: bs, ?_, ?_, ?_, ?_⟩
      · simp only [decode_str_loop2, hstep, heq]
      · simp [hbs, hnull]
      · simp [hlen]
      · intro p hp
        rw [List.zip_cons_cons] at hp
        rcases List.mem_cons.mp hp with h1 | h1
        · intro _; rw [h1]
        · exact hzip p h1
    · have hnn : rowIsNull row opt = false := by
        cases h : rowIsNull row opt
        · rfl
        · exact absurd h hnull
      have hterm := wfrow_not_null_term opt row hrow hnn
      have hstep := decode_step_notnull opt row hrow.1 hnn hterm
      refine ⟨decode_str_scratch row opt :: vals, true :: bs, ?_, ?_, ?_, ?_⟩
      · simp only [decode_str_loop2, hstep, heq]
      · simp [hbs, hnn]
      · simp [hlen]
      · intro p hp
        rw [List.zip_cons_cons] at hp
        rcases List.mem_cons.mp hp with h1 | h1
        · intro hfalse
          rw [h1] at hfalse
          cases hfalse
        · exact hzip p h1

theorem loop1_wf (opt : RowEncodingOptions) :
    ∀ rows : List (List Nat), (∀ row ∈ rows, WFRow row opt) →
      ∃ vals sawNull, decode_str_loop1 rows opt = some (vals, sawNull) ∧
        (∀ row ∈ rows.take vals.length, rowIsNull row opt = false) ∧
        (sawNull = false → vals.length = rows.length) ∧
        (sawNull = true → vals.length < rows.length ∧
          ∀ row2, (rows.drop vals.length).head? = some row2 → rowIsNull row2 opt = true) := by
  intro rows
  induction rows with
  | nil =>
    intro _
    exact ⟨[], false, rfl, by simp, fun _ => rfl, fun h => by cases h⟩
  | cons row rest ih =>
    intro hwf
    have hrow := hwf row (List.mem_cons_self row rest)
    have hrest := fun r hr => hwf r (List.mem_cons_of_mem row hr)
    by_cases hnull : rowIsNull row opt = true
    · have hstep := decode_step_null opt row hrow.1 hnull
      refine ⟨[], true, ?_, by simp, ?_, ?_⟩
      · simp only [decode_str_loop1, hstep]
      · intro h; cases h
      · intro _
        refine ⟨by simp, ?_⟩
        intro row2 h2
        simp only [List.length_nil, List.drop_zero, List.head?_cons,
          Option.some.injEq] at h2
        rw [← h2]
        exact hnull
    · have hnn : rowIsNull row opt = false := by
        cases h : rowIsNull row opt
        · rfl
        · exact absurd h hnull
      have hterm := wfrow_not_null_term opt row hrow hnn
      have hstep := decode_step_notnull opt row hrow.1 hnn hterm
      obtain ⟨vals, sawNull, heq, htake, hfalse, htrue⟩ := ih hrest
      refine ⟨decode_str_scratch row opt :: vals, sawNull, ?_, ?_, ?_, ?_⟩
      · simp only [decode_str_loop1, hstep, heq]
      · intro r hr
        simp only [List.length_cons, List.take_succ_cons] at hr
        rcases List.mem_cons.mp hr with h1 | h1
        · rw [h1]; exact hnn
        · exact htake r h1
      · intro h
        simp [hfalse h]
      · intro h
        obtain ⟨hlt, hhead⟩ := htrue h
        refine ⟨by simp; omega, ?_⟩
        intro row2 h2
        simp only [List.length_cons, List.drop_succ_cons] at h2
        exact hhead row2 h2

theorem map_not_null_replicate (opt : RowEncodingOptions) (l : List (List Nat))
    (h : ∀ r ∈ l, rowIsNull r opt = false) :
    l.map (fun r => !(rowIsNull r opt)) = List.replicate l.length true := by
  induction l with
  | nil => rfl
  | cons a t ih =>
    simp [List.replicate_succ, h a (List.mem_cons_self a t),
      ih (fun r hr => h r (List.mem_cons_of_mem a hr))]

theorem decode_str_wf (opt : RowEncodingOptions) (rows : List (List Nat))
    (hwf : ∀ row ∈ rows, WFRow row opt) :
    ∃ vals validity, decode_str rows opt = some (vals, validity) ∧
      vals.length = rows.length ∧
      ((∀ row ∈ rows, rowIsNull row opt = false) ↔ validity = none) ∧
      (∀ bs, validity = some bs → bs = rows.map (fun r => !(rowIsNull r opt))) ∧
      (∀ bs, validity = some bs →
        ∀ p ∈ vals.zip bs, p.2 = false → p.1 = ([] : List Nat)) := by
  obtain ⟨vals1, sawNull, h1, htake, hfalse, htrue⟩ := loop1_wf opt rows hwf
  cases sawNull
  case false =>
    have hlen := hfalse rfl
    refine ⟨vals1, none, ?_, hlen, ?_, ?_, ?_⟩
    · simp only [decode_str, h1, if_pos hlen]
    · constructor
      · intro _; rfl
      · intro _ row hr
        refine htake row ?_
        rw [hlen, List.take_length rows]
        exact hr
    · intro bs h; cases h
    · intro bs h; cases h
  case true =>
    obtain ⟨hlt, hhead⟩ := htrue rfl
    have hne2 : rows.drop vals1.length ≠ [] := by
      intro hx
      have hco := congrArg List.length hx
      simp only [List.length_drop, List.length_nil] at hco
      omega
    obtain ⟨nullRow, t0, hx⟩ : ∃ a t, rows.drop vals1.length = a :: t := by
      cases hx : rows.drop vals1.length with
      | nil => exact absurd hx hne2
      | cons a t => exact ⟨a, t, rfl⟩
    have hnr : (rows.drop vals1.length).head? = some nullRow := by rw [hx]; rfl
    have hnull : rowIsNull nullRow opt = true := hhead nullRow hnr
    have hdecomp : rows.drop vals1.length = nullRow :: rows.drop (vals1.length + 1) := by
      rw [hx]
      congr 1
      have ht0 : t0 = (rows.drop vals1.length).tail := by
        rw [hx]
        rfl
      rw [ht0, List.tail_drop]
    have hwf2 : ∀ row ∈ rows.drop (vals1.length + 1), WFRow row opt :=
      fun r hr => hwf r (List.mem_of_mem_drop hr)
    obtain ⟨vals2, bs2, h2, hbs2, hlen2, hzip2⟩ :=
      loop2_wf opt (rows.drop (vals1.length + 1)) hwf2
    have hnelen : ¬ (vals1.length = rows.length) := by omega
    have hrows_split : rows = rows.take vals1.length ++ nullRow :: rows.drop (vals1.length + 1) := by
      conv_lhs => rw [← List.take_append_drop vals1.length rows]
      rw [hdecomp]
    have hktake : (rows.take vals1.length).length = vals1.length := by
      rw [List.length_take]
      omega
    refine ⟨(vals1 ++ [[]]) ++ vals2,
      some ((List.replicate vals1.length true ++ [false]) ++ bs2), ?_, ?_, ?_, ?_, ?_⟩
    · simp only [decode_str, h1, if_neg hnelen, h2]
    · rw [List.length_append, List.length_append, hlen2, List.length_drop]
      simp only [List.length_cons, List.length_nil]
      omega
    · constructor
      · intro hall
        exfalso
        have hmem : nullRow ∈ rows := by
          rw [hrows_split]
          exact List.mem_append.mpr (Or.inr (List.mem_cons_self _ _))
        rw [hall nullRow hmem] at hnull
        cases hnull
      · intro h; cases h
    · intro bs hbs
      injection hbs with hbs
      rw [← hbs]
      conv_rhs => rw [hrows_split]
      rw [List.map_append, List.append_assoc]
      refine congrArg₂ (· ++ ·) ?_ ?_
      · rw [map_not_null_replicate opt _ htake, hktake]
      · simp [hnull, hbs2]
    · intro bs hbs
      injection hbs with hbs
      rw [← hbs]
      intro p hp
      rw [List.zip_append (by simp)] at hp
      rcases List.mem_append.mp hp with hmem | hmem
      · rw [List.zip_append (by simp)] at hmem
        rcases List.mem_append.mp hmem with h3 | h3
        · intro hpf
          have hsnd := (List.of_mem_zip h3).2
          rw [List.eq_of_mem_replicate hsnd] at hpf
          cases hpf
        · intro _
          have : p = ([], false) := by simpa using h3
          rw [this]
      · exact hzip2 p hmem

/-! ### C8: one-time bitmap promotion -/

/-- C8: when no input row starts with the null sentinel, decode_str returns no
validity bitmap; as soon as some row is null it returns a bitmap that is true
exactly at the non-null rows, with an empty placeholder value at each null
position, so output element i is null exactly when encoded row i was null. -/
theorem bitmap_promotion (opt : RowEncodingOptions) (rows : List (List Nat))
    (hwf : ∀ row ∈ rows, WFRow row opt) :
    ∃ vals validity, decode_str rows opt = some (vals, validity) ∧
      vals.length = rows.length ∧
      ((∀ row ∈ rows, rowIsNull row opt = false) → validity = none) ∧
      ((∃ row ∈ rows, rowIsNull row opt = true) →
        ∃ bs, validity = some bs ∧
          bs = rows.map (fun r => !(rowIsNull r opt)) ∧
          ∀ p ∈ vals.zip bs, p.2 = false → p.1 = ([] : List Nat)) := by
  obtain ⟨vals, validity, heq, hlen, hiff, hmap, hzip⟩ := decode_str_wf opt rows hwf
  refine ⟨vals, validity, heq, hlen, fun h => hiff.mp h, ?_⟩
  intro hex
  cases hv : validity with
  | none =>
    exfalso
    obtain ⟨row, hmem, hnull⟩ := hex
    have hfalse := hiff.mpr hv row hmem
    rw [hfalse] at hnull
    cases hnull
  | some bs => exact ⟨bs, rfl, hmap bs hv, hzip bs hv⟩

theorem bitmap_promotion_witness :
    ∃ vals validity,
      decode_str ([[0x63, 0x01], [0x00]] : List (List Nat))
          (RowEncodingOptions.mk false false false) = some (vals, validity) ∧
      vals.length = ([[0x63, 0x01], [0x00]] : List (List Nat)).length ∧
      ((∀ row ∈ ([[0x63, 0x01], [0x00]] : List (List Nat)),
          rowIsNull row (RowEncodingOptions.mk false false false) = false) →
        validity = none) ∧
      ((∃ row ∈ ([[0x63, 0x01], [0x00]] : List (List Nat)),
          rowIsNull row (RowEncodingOptions.mk false false false) = true) →
        ∃ bs, validity = some bs ∧
          bs = ([[0x63, 0x01], [0x00]] : List (List Nat)).map
            (fun r => !(rowIsNull r (RowEncodingOptions.mk false false false))) ∧
          ∀ p ∈ vals.zip bs, p.2 = false → p.1 = ([] : List Nat)) :=
  bitmap_promotion (RowEncodingOptions.mk false false false)
    ([[0x63, 0x01], [0x00]] : List (List Nat)) (by simp only [WFRow]; decide)

/-! ### C10: decode is safe on well-formed input -/

/-- C10: for rows in which every slice is non-empty and either starts with the
null sentinel or contains the matching terminator, the undefined-behaviour
branches of decode_str and len_from_buffer are unreachable: both succeed. -/
theorem decode_safety (opt : RowEncodingOptions) (rows : List (List Nat))
    (hwf : ∀ row ∈ rows, WFRow row opt) :
    (decode_str rows opt).isSome = true ∧
    ∀ row ∈ rows, (len_from_buffer row opt).isSome = true := by
  constructor
  · obtain ⟨vals, validity, heq, _⟩ := decode_str_wf opt rows hwf
    rw [heq]; rfl
  · intro row hr
    have hw := hwf row hr
    by_cases hnull : rowIsNull row opt = true
    · rw [len_from_buffer_null opt row hw.1 hnull]; rfl
    · have hnn : rowIsNull row opt = false := by
        cases h : rowIsNull row opt
        · rfl
        · exact absurd h hnull
      rw [len_from_buffer_notnull opt row hw.1 hnn (wfrow_not_null_term opt row hw hnn)]
      rfl

theorem decode_safety_witness :
    (decode_str ([[0x00], [0x9C, 0xFE]] : List (List Nat))
        (RowEncodingOptions.mk true false false)).isSome = true ∧
    ∀ row ∈ ([[0x00], [0x9C, 0xFE]] : List (List Nat)),
      (len_from_buffer row (RowEncodingOptions.mk true false false)).isSome = true :=
  decode_safety (RowEncodingOptions.mk true false false)
    ([[0x00], [0x9C, 0xFE]] : List (List Nat)) (by simp only [WFRow]; decide)

/-! ### C1: round trip -/

theorem loop2_enc (opt : RowEncodingOptions) :
    ∀ input : List (Option (List Nat)),
      (∀ v ∈ input, ∀ s, v = some s → ∀ b ∈ s, b ≤ 251) →
      decode_str_loop2 (input.map (fun v => encode_str_item v opt)) opt =
        some (input.map (fun v => v.getD []), input.map (fun v => v.isSome)) := by
  intro input
  induction input with
  | nil => intro _; rfl
  | cons v vs ih =>
    intro hb
    have hvs : ∀ w ∈ vs, ∀ s, w = some s → ∀ b ∈ s, b ≤ 251 :=
      fun w hw => hb w (List.mem_cons_of_mem v hw)
    cases v with
    | none =>
      simp only [List.map_cons, decode_str_loop2, decode_step_enc_none opt, ih hvs]
      rfl
    | some s =>
      have hbs : ∀ b ∈ s, b ≤ 251 := hb (some s) (List.mem_cons_self _ _) s rfl
      simp only [List.map_cons, decode_str_loop2, decode_step_enc_some opt s hbs, ih hvs]
      rfl

theorem loop1_enc_all_some (opt : RowEncodingOptions) :
    ∀ input : List (Option (List Nat)),
      (∀ v ∈ input, ∀ s, v = some s → ∀ b ∈ s, b ≤ 251) →
      (∀ v ∈ input, v.isSome = true) →
      decode_str_loop1 (input.map (fun v => encode_str_item v opt)) opt =
        some (input.map (fun v => v.getD []), false) := by
  intro input
  induction input with
  | nil => intro _ _; rfl
  | cons v vs ih =>
    intro hb hsome
    cases v with
    | none =>
      have hv := hsome none (List.mem_cons_self _ _)
      cases hv
    | some s =>
      have hbs : ∀ b ∈ s, b ≤ 251 := hb (some s) (List.mem_cons_self _ _) s rfl
      have hvs : ∀ w ∈ vs, ∀ t, w = some t → ∀ b ∈ t, b ≤ 251 :=
        fun w hw => hb w (List.mem_cons_of_mem _ hw)
      have hvsome : ∀ w ∈ vs, w.isSome = true :=
        fun w hw => hsome w (List.mem_cons_of_mem _ hw)
      simp only [List.map_cons, decode_str_loop1, decode_step_enc_some opt s hbs,
        ih hvs hvsome]
      rfl

theorem loop1_enc_break (opt : RowEncodingOptions) :
    ∀ pre post : List (Option (List Nat)),
      (∀ v ∈ pre, ∀ s, v = some s → ∀ b ∈ s, b ≤ 251) →
      (∀ v ∈ pre, v.isSome = true) →
      decode_str_loop1 ((pre ++ none :: post).map (fun v => encode_str_item v opt)) opt =
        some (pre.map (fun v => v.getD []), true) := by
  intro pre
  induction pre with
  | nil =>
    intro post _ _
    simp only [List.nil_append, List.map_cons, decode_str_loop1, decode_step_enc_none opt]
    rfl
  | cons v vs ih =>
    intro post hb hsome
    cases v with
    | none =>
      have hv := hsome none (List.mem_cons_self _ _)
      cases hv
    | some s =>
      have hbs : ∀ b ∈ s, b ≤ 251 := hb (some s) (List.mem_cons_self _ _) s rfl
      have hvs : ∀ w ∈ vs, ∀ t, w = some t → ∀ b ∈ t, b ≤ 251 :=
        fun w hw => hb w (List.mem_cons_of_mem _ hw)
      have hvsome : ∀ w ∈ vs, w.isSome = true :=
        fun w hw => hsome w (List.mem_cons_of_mem _ hw)
      simp only [List.cons_append, List.map_cons, decode_str_loop1,
        decode_step_enc_some opt s hbs, List.append_eq, ih post hvs hvsome]
      rfl

theorem decoded_to_list_none_all_some (input : List (Option (List Nat)))
    (h : ∀ v ∈ input, v.isSome = true) :
    decoded_to_list (input.map (fun v => v.getD [])) none = input := by
  simp only [decoded_to_list, List.map_map]
  have hcong : ∀ v ∈ input, (some ∘ fun w : Option (List Nat) => w.getD []) v = id v := by
    intro v hv
    cases v with
    | none => cases h none hv
    | some a => rfl
  rw [List.map_congr_left hcong]
  exact List.map_id input

theorem zipWith_getD_isSome (input : List (Option (List Nat))) :
    List.zipWith (fun v b => if b then some v else none)
      (input.map (fun v => v.getD [])) (input.map (fun v => v.isSome)) = input := by
  induction input with
  | nil => rfl
  | cons v vs ih =>
    simp only [List.map_cons, List.zipWith_cons_cons, ih]
    congr 1
    cases v <;> rfl

theorem zipWith_replicate_true_map_some (vals : List (List Nat)) :
    List.zipWith (fun v b => if b then some v else none) vals
      (List.replicate vals.length true) = vals.map some := by
  induction vals with
  | nil => rfl
  | cons a t ih => simp [List.replicate_succ, ih]

theorem dropWhile_head_false {α : Type} (p : α → Bool) :
    ∀ l : List α, ∀ a t, l.dropWhile p = a :: t → p a = false := by
  intro l
  induction l with
  | nil => intro a t h; cases h
  | cons x xs ih =>
    intro a t h
    rw [List.dropWhile_cons] at h
    by_cases hx : p x = true
    · rw [if_pos hx] at h
      exact ih a t h
    · rw [if_neg hx] at h
      injection h with h1 _
      rw [← h1]
      cases hpx : p x
      · rfl
      · exact absurd hpx hx

/-- C1: encoding a finite sequence of optional strings with encode_str and
decoding the per-row byte slices with decode_str under the same options
recovers the original sequence, a null input decoding to a null element and a
non-null string to an equal string (null-equal semantics). -/
theorem encode_decode_round_trip (opt : RowEncodingOptions)
    (input : List (Option (List Nat)))
    (hb : ∀ v ∈ input, ∀ s, v = some s → ∀ b ∈ s, b ≤ 0xFB) :
    ∃ vals validity,
      decode_str (input.map (fun v => encode_str_item v opt)) opt =
        some (vals, validity) ∧
      decoded_to_list vals validity = input := by
  by_cases hall : ∀ v ∈ input, v.isSome = true
  · refine ⟨input.map (fun v => v.getD []), none, ?_,
      decoded_to_list_none_all_some input hall⟩
    simp only [decode_str, loop1_enc_all_some opt input hb hall]
    rw [if_pos (by rw [List.length_map, List.length_map])]
  · have hsplit := List.takeWhile_append_dropWhile (fun v => Option.isSome v) input
    obtain ⟨v0, post, hsufeq⟩ :
        ∃ a t, input.dropWhile (fun v => Option.isSome v) = a :: t := by
      cases hx : input.dropWhile (fun v => Option.isSome v) with
      | nil =>
        exfalso
        apply hall
        intro v hv
        rw [← hsplit, hx, List.append_nil] at hv
        exact List.mem_takeWhile_imp hv
      | cons a t => exact ⟨a, t, rfl⟩
    have hv0 : v0 = none := by
      have hfalse := dropWhile_head_false (fun v => Option.isSome v) input v0 post hsufeq
      cases v0 with
      | none => rfl
      | some s => cases hfalse
    subst hv0
    set pre := input.takeWhile (fun v => Option.isSome v) with hpre
    have hioeq : input = pre ++ none :: post := by
      rw [← hsplit, hsufeq]
    have hsomepre : ∀ v ∈ pre, v.isSome = true := fun v hv => List.mem_takeWhile_imp hv
    have hbpre : ∀ v ∈ pre, ∀ s, v = some s → ∀ b ∈ s, b ≤ 251 := by
      intro v hv
      refine hb v ?_
      rw [hioeq]
      exact List.mem_append.mpr (Or.inl hv)
    have hbpost : ∀ v ∈ post, ∀ s, v = some s → ∀ b ∈ s, b ≤ 251 := by
      intro v hv
      refine hb v ?_
      rw [hioeq]
      exact List.mem_append.mpr (Or.inr (List.mem_cons_of_mem _ hv))
    have h1 : decode_str_loop1 (input.map (fun v => encode_str_item v opt)) opt =
        some (pre.map (fun v => v.getD []), true) := by
      rw [hioeq]
      exact loop1_enc_break opt pre post hbpre hsomepre
    have hklen : (pre.map (fun v : Option (List Nat) => v.getD [])).length = pre.length :=
      List.length_map pre _
    have hlt : pre.length < input.length := by
      rw [hioeq, List.length_append, List.length_cons]
      omega
    have hdrop :
        List.drop ((pre.map (fun v : Option (List Nat) => v.getD [])).length + 1)
          (input.map (fun v => encode_str_item v opt)) =
        post.map (fun v => encode_str_item v opt) := by
      rw [hklen, hioeq, List.map_append, List.map_cons]
      have hassoc :
          pre.map (fun v => encode_str_item v opt) ++
              encode_str_item none opt :: post.map (fun v => encode_str_item v opt) =
            (pre.map (fun v => encode_str_item v opt) ++ [encode_str_item none opt]) ++
              post.map (fun v => encode_str_item v opt) := by
        simp
      rw [hassoc]
      have hlen1 : (pre.map (fun v => encode_str_item v opt) ++
          [encode_str_item none opt]).length = pre.length + 1 := by
        simp
      rw [← hlen1, List.drop_left]
    refine ⟨(pre.map (fun v => v.getD []) ++ [[]]) ++ post.map (fun v => v.getD []),
      some ((List.replicate pre.length true ++ [false]) ++
        post.map (fun v => v.isSome)), ?_, ?_⟩
    · simp only [decode_str, h1]
      rw [if_neg (by rw [hklen, List.length_map]; omega)]
      rw [hdrop, loop2_enc opt post hbpost, hklen]
    · simp only [decoded_to_list]
      rw [List.zipWith_append _ _ _ _ _ (by simp [hklen])]
      rw [List.zipWith_append _ _ _ _ _ (by rw [hklen, List.length_replicate])]
      rw [zipWith_getD_isSome post]
      have hz1 : List.zipWith (fun v b => if b then some v else none)
          (pre.map (fun v => v.getD [])) (List.replicate pre.length true) =
            (pre.map (fun v : Option (List Nat) => v.getD [])).map some := by
        rw [← hklen]
        exact zipWith_replicate_true_map_some _
      rw [hz1]
      have hz2 : ((pre.map (fun v : Option (List Nat) => v.getD [])).map some) = pre := by
        rw [List.map_map]
        have hcong : ∀ v ∈ pre,
            (some ∘ fun w : Option (List Nat) => w.getD []) v = id v := by
          intro v hv
          cases v with
          | none => cases hsomepre none hv
          | some a => rfl
        rw [List.map_congr_left hcong]
        exact List.map_id pre
      rw [hz2]
      have hz3 : List.zipWith (fun v b => if b then some v else none)
          ([[]] : List (List Nat)) [false] = ([none] : List (Option (List Nat))) := rfl
      rw [hz3, hioeq]
      simp

theorem encode_decode_round_trip_witness :
    ∃ vals validity,
      decode_str (([some [0x61], none, some [0x62]] : List (Option (List Nat))).map
          (fun v => encode_str_item v (RowEncodingOptions.mk false false false)))
        (RowEncodingOptions.mk false false false) = some (vals, validity) ∧
      decoded_to_list vals validity = [some [0x61], none, some [0x62]] :=
  encode_decode_round_trip (RowEncodingOptions.mk false false false)
    [some [0x61], none, some [0x62]] (by decide)

/-! ### C2: order preservation -/

theorem lexCompare_cons_cons (x y : Nat) (xs ys : List Nat) :
    lexCompare (x :: xs) (y :: ys) =
      if x < y then .lt else if y < x then .gt else lexCompare xs ys := rfl

theorem lexCompare_shift_asc :
    ∀ a b : List Nat,
      lexCompare (a.map (fun x => x + 2) ++ [1]) (b.map (fun x => x + 2) ++ [1]) =
        lexCompare a b := by
  intro a
  induction a with
  | nil =>
    intro b
    cases b with
    | nil => rfl
    | cons y ys =>
      simp only [List.map_nil, List.nil_append, List.map_cons, List.cons_append]
      rw [lexCompare_cons_cons, if_pos (by omega)]
      rfl
  | cons x xs ih =>
    intro b
    cases b with
    | nil =>
      simp only [List.map_cons, List.cons_append, List.map_nil, List.nil_append]
      rw [lexCompare_cons_cons, if_neg (by omega), if_pos (by omega)]
      rfl
    | cons y ys =>
      simp only [List.map_cons, List.cons_append]
      rw [lexCompare_cons_cons, lexCompare_cons_cons]
      by_cases h1 : x < y
      · rw [if_pos (by omega), if_pos h1]
      · rw [if_neg (by omega), if_neg h1]
        by_cases h2 : y < x
        · rw [if_pos (by omega), if_pos h2]
        · rw [if_neg (by omega), if_neg h2]
          exact ih ys

theorem lexCompare_shift_desc :
    ∀ a b : List Nat, (∀ v ∈ a, v ≤ 253) → (∀ v ∈ b, v ≤ 253) →
      lexCompare (a.map (fun v => 253 - v) ++ [254]) (b.map (fun v => 253 - v) ++ [254]) =
        (lexCompare a b).swap := by
  intro a
  induction a with
  | nil =>
    intro b _ hbb
    cases b with
    | nil => rfl
    | cons y ys =>
      have hy := hbb y (List.mem_cons_self _ _)
      simp only [List.map_nil, List.nil_append, List.map_cons, List.cons_append]
      rw [lexCompare_cons_cons, if_neg (by omega), if_pos (by omega)]
      rfl
  | cons x xs ih =>
    intro b hba hbb
    have hx := hba x (List.mem_cons_self _ _)
    have hxs : ∀ v ∈ xs, v ≤ 253 := fun v hv => hba v (List.mem_cons_of_mem _ hv)
    cases b with
    | nil =>
      simp only [List.map_cons, List.cons_append, List.map_nil, List.nil_append]
      rw [lexCompare_cons_cons, if_pos (by omega)]
      rfl
    | cons y ys =>
      have hy := hbb y (List.mem_cons_self _ _)
      have hys : ∀ v ∈ ys, v ≤ 253 := fun v hv => hbb v (List.mem_cons_of_mem _ hv)
      simp only [List.map_cons, List.cons_append]
      rw [lexCompare_cons_cons, lexCompare_cons_cons]
      by_cases h1 : x < y
      · rw [if_neg (by omega), if_pos (by omega), if_pos h1]
        rfl
      · rw [if_neg h1]
        by_cases h2 : y < x
        · rw [if_pos (by omega), if_pos h2]
          rfl
        · rw [if_neg (by omega), if_neg (by omega), if_neg h2]
          exact ih ys hxs hys

/-- C2: for two optional strings encoded as single-column rows under the same
options with UNORDERED clear, lexicographic byte comparison of the encodings
equals the comparison of the values under the options: byte-lexicographic
string order, reversed per value under DESCENDING, nulls first unless
NULLS_LAST places them last. -/
theorem order_preservation (opt : RowEncodingOptions) (x y : Option (List Nat))
    (hu : opt.unordered = false)
    (hx : ∀ s, x = some s → ∀ b ∈ s, b ≤ 0xFB)
    (hy : ∀ s, y = some s → ∀ b ∈ s, b ≤ 0xFB) :
    lexCompare (encode_str_item x opt) (encode_str_item y opt) =
      optionStrCompare opt x y := by
  cases x with
  | none =>
    cases y with
    | none =>
      rw [show encode_str_item none opt = [opt.null_sentinel] from rfl]
      rw [lexCompare_cons_cons, if_neg (by omega), if_neg (by omega)]
      rfl
    | some s =>
      have hbs := hy s rfl
      obtain ⟨h, t, heq, h1, h2⟩ := enc_some_head opt s hbs
      rw [show encode_str_item none opt = [opt.null_sentinel] from rfl, heq]
      cases hnl : opt.nulls_last
      · have hs : opt.null_sentinel = 0 := by
          simp [RowEncodingOptions.null_sentinel, hnl]
        rw [hs, lexCompare_cons_cons, if_pos (by omega)]
        simp [optionStrCompare, hnl]
      · have hs : opt.null_sentinel = 255 := by
          simp [RowEncodingOptions.null_sentinel, hnl]
        rw [hs, lexCompare_cons_cons, if_neg (by omega), if_pos (by omega)]
        simp [optionStrCompare, hnl]
  | some s =>
    cases y with
    | none =>
      have hbs := hx s rfl
      obtain ⟨h, t, heq, h1, h2⟩ := enc_some_head opt s hbs
      rw [show encode_str_item none opt = [opt.null_sentinel] from rfl, heq]
      cases hnl : opt.nulls_last
      · have hs : opt.null_sentinel = 0 := by
          simp [RowEncodingOptions.null_sentinel, hnl]
        rw [hs, lexCompare_cons_cons, if_neg (by omega), if_pos (by omega)]
        simp [optionStrCompare, hnl]
      · have hs : opt.null_sentinel = 255 := by
          simp [RowEncodingOptions.null_sentinel, hnl]
        rw [hs, lexCompare_cons_cons, if_pos (by omega)]
        simp [optionStrCompare, hnl]
    | some s2 =>
      have hbs : ∀ b ∈ s, b ≤ 251 := hx s rfl
      have hbs2 : ∀ b ∈ s2, b ≤ 251 := hy s2 rfl
      have h253 : ∀ b ∈ s, b ≤ 253 := fun b hbm => Nat.le_trans (hbs b hbm) (by omega)
      have h253b : ∀ b ∈ s2, b ≤ 253 := fun b hbm => Nat.le_trans (hbs2 b hbm) (by omega)
      cases hd : opt.descending
      · rw [enc_some_asc opt s hd h253, enc_some_asc opt s2 hd h253b,
          lexCompare_shift_asc]
        simp [optionStrCompare, hd]
      · rw [enc_some_desc opt s hd h253, enc_some_desc opt s2 hd h253b,
          lexCompare_shift_desc s s2 h253 h253b]
        simp [optionStrCompare, hd]

theorem order_preservation_witness :
    lexCompare
        (encode_str_item (some [0x61]) (RowEncodingOptions.mk false false false))
        (encode_str_item none (RowEncodingOptions.mk false false false)) =
      optionStrCompare (RowEncodingOptions.mk false false false) (some [0x61]) none :=
  order_preservation (RowEncodingOptions.mk false false false) (some [0x61]) none rfl
    (fun s hs => by injection hs with h; subst h; decide)
    (fun s hs => Option.noConfusion hs)
